import Mathlib

/-!
Verification of the FridgeMate app (`src/mvp.py`).

The app's string operations are Python's `str.strip`, `str.split(sep)`,
`str.replace(old, "")` and text-mode file reading (universal newlines);
they are embedded here as executable functions on `List Char`.  Python's
`split` and `replace` scan left to right and consume non-overlapping
occurrences of the separator; both are defined below by structural
recursion on a fuel argument equal to the input length, so that concrete
instances reduce inside the kernel.
-/

/-- The characters removed by Python's `str.strip()`: exactly those for
which `str.isspace()` holds, i.e. U+0009..U+000D, U+001C..U+001F, space,
U+0085, U+00A0, U+1680, U+2000..U+200A, U+2028, U+2029, U+202F, U+205F and
U+3000. -/
def pyWhitespace : List Char :=
  ['\t', '\n', '\x0b', '\x0c', '\r', '\x1c', '\x1d', '\x1e', '\x1f', ' ',
   '\x85', '\xa0', '\u1680', '\u2000', '\u2001', '\u2002', '\u2003',
   '\u2004', '\u2005', '\u2006', '\u2007', '\u2008', '\u2009', '\u200a',
   '\u2028', '\u2029', '\u202f', '\u205f', '\u3000']

/-- Python `str.isspace()` / the class of characters `str.strip()` drops. -/
def pyIsSpace (c : Char) : Bool :=
  pyWhitespace.contains c

/-- Python `str.strip()`: drop leading and trailing whitespace. -/
def pyStrip (l : List Char) : List Char :=
  ((l.dropWhile pyIsSpace).reverse.dropWhile pyIsSpace).reverse

/-- The universal-newlines translation performed by reading a file in text
mode (`open(..., "r")` with the default `newline=None`): each `"\r\n"` pair
and each lone `"\r"` is translated to `"\n"` before the caller sees the
text.  `readlines` then splits on `"\n"` alone. -/
def uninl : List Char → List Char
  | [] => []
  | '\r' :: '\n' :: cs => '\n' :: uninl cs
  | '\r' :: cs => '\n' :: uninl cs
  | c :: cs => c :: uninl cs

/-- Fuelled worker for Python `str.split(sep)` (`sep` nonempty): scan left to
right; at each position where `sep` is a prefix of the rest, close the current
chunk and skip `sep`.  Fuel bounds the number of consumed characters; the
`fuel = 0` fallback is never reached when started with `fuel = l.length`. -/
def pySplitF (sep : List Char) : Nat → List Char → List (List Char)
  | _, [] => [[]]
  | 0, l => [l]
  | fuel+1, c :: cs =>
    if sep ≠ [] ∧ sep.isPrefixOf (c :: cs) then
      [] :: pySplitF sep fuel (cs.drop (sep.length - 1))
    else
      (pySplitF sep fuel cs).modifyHead (c :: ·)

/-- Python `str.split(sep)` for a nonempty separator. -/
def pySplit (sep l : List Char) : List (List Char) :=
  pySplitF sep l.length l

/-- Fuelled worker for Python `str.replace(old, "")` (`old` nonempty):
remove every non-overlapping occurrence of `old`, scanning left to right. -/
def pyReplaceF (old : List Char) : Nat → List Char → List Char
  | _, [] => []
  | 0, l => l
  | fuel+1, c :: cs =>
    if old ≠ [] ∧ old.isPrefixOf (c :: cs) then
      pyReplaceF old fuel (cs.drop (old.length - 1))
    else
      c :: pyReplaceF old fuel cs

/-- Python `str.replace(old, "")` for a nonempty `old`. -/
def pyReplaceEmpty (old l : List Char) : List Char :=
  pyReplaceF old l.length l

/-- A separator whose first character does not recur in it (true of
`"RECIPE:"` and `"CAPTION:"`); such a separator admits no occurrence that
straddles a known occurrence, which makes `pySplit` compositional. -/
def SepOk (sep : List Char) : Prop :=
  sep ≠ [] ∧ ∀ c ∈ sep.tail, c ≠ sep.headI

instance (sep : List Char) : Decidable (SepOk sep) := by
  unfold SepOk; infer_instance

/-- File-system state for the memory store: the contents of `memory.txt`
(`none` when the file does not exist) and whether the backing medium can be
opened for writing at all. -/
structure MemFS where
  file : Option String
  available : Bool
  deriving DecidableEq

/-- `save_feedback` (mvp.py:13-16): `open("memory.txt", "a")` followed by
`f.write(text + "\n")`.  Appending creates the file when missing; when the
backing medium is unavailable, `open` raises and the function has no
handler, modelled by `Except.error ()`. -/
def save_feedback (text : String) (fs : MemFS) : Except Unit MemFS :=
  if fs.available then
    Except.ok ⟨some ((fs.file.getD "") ++ text ++ "\n"), fs.available⟩
  else
    Except.error ()

/-- The stripped nonblank lines of the file contents, as computed by the
list comprehension in `load_trimmed_memory` (mvp.py:22).  Text-mode
`readlines` first applies the universal-newlines translation (`uninl`) and
then chunks at `"\n"`; chunking followed by per-line `strip` is equivalent
to splitting on the newline character and stripping each piece, since a
trailing newline only adds a blank piece, which the nonblank filter
discards. -/
def memLines (l : List Char) : List (List Char) :=
  ((pySplit ['\n'] (uninl l)).map pyStrip).filter (fun x => decide (x ≠ []))

/-- `load_trimmed_memory` (mvp.py:18-24): if the file exists, return the last
`limit` stripped nonblank lines (Python `lines[-limit:]`, which returns the
whole list when `limit = 0` since `-0 == 0`); otherwise return `[]`. -/
def load_trimmed_memory (file : Option String) (limit : Nat := 5) : List String :=
  match file with
  | none => []
  | some content =>
    let lines := (memLines content.data).map (fun l => String.mk l)
    if limit = 0 then lines else lines.drop (lines.length - limit)

/-- The "Reset AI Memory" button handler (mvp.py:50-53): delete the file if
it exists. -/
def clear_memory (file : Option String) : Option String :=
  if file.isSome then none else file

/-- Repeated feedback submissions: fold `save_feedback` over a list of
entries. -/
def appendEntries (es : List String) (fs : MemFS) : Except Unit MemFS :=
  es.foldl (fun acc e => acc.bind (save_feedback e)) (Except.ok fs)

/-- The text that a sequence of appends adds to the file. -/
def entriesText : List String → String
  | [] => ""
  | e :: es => e ++ "\n" ++ entriesText es

/-- An entry string as the spec's data model intends: a single line (it
contains neither a line feed nor a carriage return, both of which terminate
lines under text-mode reading), free of surrounding whitespace, and
nonblank. -/
def GoodEntry (e : String) : Prop :=
  pyStrip e.data = e.data ∧ e.data ≠ [] ∧ '\n' ∉ e.data ∧ '\r' ∉ e.data

instance (e : String) : Decidable (GoodEntry e) := by
  unfold GoodEntry; infer_instance

/-- A reachable prior content of the memory file: absent, empty, or ending
with the line terminator that every append writes. -/
def TerminatedPrior (file : Option String) : Prop :=
  ∀ s, file = some s → s.data = [] ∨ ∃ zs, s.data = zs ++ ['\n']

/-- `raw_options` (mvp.py:159): `last_options.split("---")`. -/
def raw_options (text : String) : List (List Char) :=
  pySplit "---".data text.data

/-- The blocks the output loop renders (mvp.py:162-163): the segments of
`raw_options` containing the literal substring `"NAME:"`. -/
def meal_blocks (text : String) : List (List Char) :=
  (raw_options text).filter (fun o => decide ("NAME:".data <:+: o))

/-- mvp.py:165: `lines = opt.strip().split('\n')`. -/
def block_lines (opt : List Char) : List (List Char) :=
  pySplit ['\n'] (pyStrip opt)

/-- `get_val` (mvp.py:166-169): return the first line containing `label`,
with every occurrence of `label` removed (`str.replace` replaces all
occurrences) and then stripped; `"N/A"` when no line contains it. -/
def get_val (lines : List (List Char)) (label : List Char) : List Char :=
  match lines.find? (fun l => decide (label <:+: l)) with
  | some l => pyStrip (pyReplaceEmpty label l)
  | none => "N/A".data

/-- `recipe_content` (mvp.py:184-186):
`opt.split("RECIPE:")[1].split("CAPTION:")[0].strip()`.  The `[1]` index is
guarded in the source by `"RECIPE:" in opt`, which guarantees at least two
chunks; out of range it is modelled by `[]`. -/
def recipe_content (opt : List Char) : List Char :=
  pyStrip ((pySplit "CAPTION:".data ((pySplit "RECIPE:".data opt).getD 1 [])).headI)

/-- mvp.py:113: `". ".join(load_trimmed_memory())`. -/
def recent_mem (file : Option String) : String :=
  String.intercalate ". " (load_trimmed_memory file)

/-- The literal template text of `sys_instruct` (mvp.py:116-138) before the
interpolated memory string (the f-string starts with a newline and 16 spaces
of indentation per line). -/
def sysInstructPre : String :=
  "\n                You are FridgeMate, a precise professional chef AI. History: "

/-- The literal template text of `sys_instruct` after the interpolated
memory string. -/
def sysInstructPost : String :=
  ". \n                Provide exactly 3 distinct meal options based on user inventory.\n                \n                For each option:\n                - RECIPE: Include EXACT measurements (e.g., 200ml water, 1 tbsp salt) and numbered steps.\n                - LEVEL: Specify difficulty (Easy/Medium/Hard) and a brief technical reason.\n                - COST: Provide estimated extra cost in GBP \u00a3.\n                - CAPTION: An engaging social media post with emojis and hashtags.\n                \n                Structure (MUST use \x27---\x27 as delimiter):\n                ---\n                NAME: [Dish Name]\n                TIME: [Prep Time]\n                LEVEL: [Level + Reason]\n                SHOPPING: [Missing items to buy]\n                COST: \u00a3[Amount]\n                IMG_KEY: [Food noun for image prompt]\n                ING_KEY: [Main raw ingredient for image prompt]\n                RECIPE: [Ingredients with amounts, followed by numbered steps]\n                CAPTION: [Instagram style text]\n                ---\n                "

/-- `sys_instruct` (mvp.py:116-138): the system instruction with the joined
memory string interpolated. -/
def sys_instruct (mem : String) : String :=
  sysInstructPre ++ mem ++ sysInstructPost

/-- `prompt_text` (mvp.py:139): the user message.  The form state holds six
fields, but the f-string interpolates only four of them. -/
def prompt_text (ingredients time_avail energy_level vibe budget grocery_access : String) : String :=
  "Inventory: " ++ ingredients ++ ", Time: " ++ time_avail ++ ", Vibe: " ++
    vibe ++ ", Budget: " ++ budget

/-- One HTTP response as `generate_hf_image` observes it.  `json_estimated`
describes what the 503 branch would extract: `none` when `response.json()`
raises (body not JSON) or the hint is unusable by `int(...)`, `some none`
for a JSON body without an `estimated_time` key, and `some (some t)` for a
usable hint of `t` seconds. -/
structure HFResponse where
  status_code : Nat
  content : String
  json_estimated : Option (Option Nat)
  deriving DecidableEq

/-- Outcome of one `requests.post` call inside `generate_hf_image`: either a
response, or a raised transport-level exception. -/
inductive AttemptOutcome where
  | resp (r : HFResponse)
  | raises
  deriving DecidableEq

/-- The body of `for attempt in range(3)` in `generate_hf_image`
(mvp.py:66-80), with `fuel` iterations remaining.  The first component is
the returned value (`None` on every failure path, including a caught
exception and loop exhaustion); the second records the durations passed to
`time.sleep` in order. -/
def hfLoop (o : Nat → AttemptOutcome) : Nat → Nat → Option String × List Nat
  | _, 0 => (none, [])
  | attempt, fuel+1 =>
    match o attempt with
    | .raises => (none, [])
    | .resp r =>
      if r.status_code = 200 then (some r.content, [])
      else if r.status_code = 503 then
        match r.json_estimated with
        | none => (none, [])
        | some est =>
          ((hfLoop o (attempt+1) fuel).1, est.getD 20 :: (hfLoop o (attempt+1) fuel).2)
      else (none, [])

/-- `generate_hf_image` (mvp.py:58-80): three attempts starting at 0. -/
def generate_hf_image (o : Nat → AttemptOutcome) : Option String × List Nat :=
  hfLoop o 0 3

theorem pySplitF_fuel (sep : List Char) :
    ∀ fuel fuel' l, l.length ≤ fuel → l.length ≤ fuel' →
      pySplitF sep fuel l = pySplitF sep fuel' l := by
  intro fuel
  induction fuel with
  | zero =>
    intro fuel' l hl _
    have : l = [] := List.eq_nil_of_length_eq_zero (Nat.le_zero.mp hl)
    subst this
    cases fuel' <;> rfl
  | succ n ih =>
    intro fuel' l hl hl'
    cases l with
    | nil => cases fuel' <;> rfl
    | cons c cs =>
      cases fuel' with
      | zero => simp at hl'
      | succ m =>
        simp only [pySplitF]
        by_cases hg : sep ≠ [] ∧ sep.isPrefixOf (c :: cs)
        · simp only [if_pos hg]
          have hlen : (cs.drop (sep.length - 1)).length ≤ n := by
            have := List.length_drop (sep.length - 1) cs
            simp only [List.length_cons] at hl
            omega
          have hlen' : (cs.drop (sep.length - 1)).length ≤ m := by
            have := List.length_drop (sep.length - 1) cs
            simp only [List.length_cons] at hl'
            omega
          rw [ih m _ hlen hlen']
        · simp only [if_neg hg]
          have hlen : cs.length ≤ n := by
            simp only [List.length_cons] at hl; omega
          have hlen' : cs.length ≤ m := by
            simp only [List.length_cons] at hl'; omega
          rw [ih m _ hlen hlen']

theorem pySplit_nil (sep : List Char) : pySplit sep [] = [[]] := rfl

theorem pySplit_cons (sep : List Char) (c : Char) (cs : List Char) :
    pySplit sep (c :: cs) =
      if sep ≠ [] ∧ sep.isPrefixOf (c :: cs) then
        [] :: pySplit sep (cs.drop (sep.length - 1))
      else
        (pySplit sep cs).modifyHead (c :: ·) := by
  show pySplitF sep (cs.length + 1) (c :: cs) = _
  simp only [pySplitF]
  by_cases hg : sep ≠ [] ∧ sep.isPrefixOf (c :: cs)
  · simp only [if_pos hg]
    have hle : (cs.drop (sep.length - 1)).length ≤ cs.length := by
      rw [List.length_drop]; omega
    rw [pySplitF_fuel sep cs.length (cs.drop (sep.length - 1)).length
      (cs.drop (sep.length - 1)) hle le_rfl]
    rfl
  · simp only [if_neg hg]
    rfl

theorem pyReplaceF_fuel (old : List Char) :
    ∀ fuel fuel' l, l.length ≤ fuel → l.length ≤ fuel' →
      pyReplaceF old fuel l = pyReplaceF old fuel' l := by
  intro fuel
  induction fuel with
  | zero =>
    intro fuel' l hl _
    have : l = [] := List.eq_nil_of_length_eq_zero (Nat.le_zero.mp hl)
    subst this
    cases fuel' <;> rfl
  | succ n ih =>
    intro fuel' l hl hl'
    cases l with
    | nil => cases fuel' <;> rfl
    | cons c cs =>
      cases fuel' with
      | zero => simp at hl'
      | succ m =>
        simp only [pyReplaceF]
        by_cases hg : old ≠ [] ∧ old.isPrefixOf (c :: cs)
        · simp only [if_pos hg]
          have hlen : (cs.drop (old.length - 1)).length ≤ n := by
            have := List.length_drop (old.length - 1) cs
            simp only [List.length_cons] at hl
            omega
          have hlen' : (cs.drop (old.length - 1)).length ≤ m := by
            have := List.length_drop (old.length - 1) cs
            simp only [List.length_cons] at hl'
            omega
          rw [ih m _ hlen hlen']
        · simp only [if_neg hg]
          have hlen : cs.length ≤ n := by
            simp only [List.length_cons] at hl; omega
          have hlen' : cs.length ≤ m := by
            simp only [List.length_cons] at hl'; omega
          rw [ih m _ hlen hlen']

theorem pyReplaceEmpty_nil (old : List Char) : pyReplaceEmpty old [] = [] := rfl

theorem pyReplaceEmpty_cons (old : List Char) (c : Char) (cs : List Char) :
    pyReplaceEmpty old (c :: cs) =
      if old ≠ [] ∧ old.isPrefixOf (c :: cs) then
        pyReplaceEmpty old (cs.drop (old.length - 1))
      else
        c :: pyReplaceEmpty old cs := by
  show pyReplaceF old (cs.length + 1) (c :: cs) = _
  simp only [pyReplaceF]
  by_cases hg : old ≠ [] ∧ old.isPrefixOf (c :: cs)
  · simp only [if_pos hg]
    have hle : (cs.drop (old.length - 1)).length ≤ cs.length := by
      rw [List.length_drop]; omega
    rw [pyReplaceF_fuel old cs.length (cs.drop (old.length - 1)).length
      (cs.drop (old.length - 1)) hle le_rfl]
    rfl
  · simp only [if_neg hg]
    rfl

theorem pySplit_ne_nil (sep : List Char) : ∀ l, pySplit sep l ≠ [] := by
  intro l
  suffices H : ∀ n (l : List Char), l.length ≤ n → pySplit sep l ≠ [] from
    H l.length l le_rfl
  intro n
  induction n with
  | zero =>
    intro l hl
    have : l = [] := List.eq_nil_of_length_eq_zero (Nat.le_zero.mp hl)
    subst this
    simp [pySplit_nil]
  | succ n ih =>
    intro l hl
    cases l with
    | nil => simp [pySplit_nil]
    | cons c cs =>
      rw [pySplit_cons]
      by_cases hg : sep ≠ [] ∧ sep.isPrefixOf (c :: cs)
      · rw [if_pos hg]
        simp
      · simp only [if_neg hg]
        have hcs : pySplit sep cs ≠ [] := by
          apply ih
          simp only [List.length_cons] at hl; omega
        cases hpc : pySplit sep cs with
        | nil => exact absurd hpc hcs
        | cons a t => simp

theorem pySplit_chunks (sep : List Char) :
    ∀ l, (pySplit sep l).headI <+: l ∧ ∀ c ∈ pySplit sep l, c <:+: l := by
  suffices H : ∀ n (l : List Char), l.length ≤ n →
      (pySplit sep l).headI <+: l ∧ ∀ c ∈ pySplit sep l, c <:+: l from
    fun l => H l.length l le_rfl
  intro n
  induction n with
  | zero =>
    intro l hl
    have : l = [] := List.eq_nil_of_length_eq_zero (Nat.le_zero.mp hl)
    subst this
    constructor
    · simp [pySplit_nil, List.headI]
    · intro c hc
      simp only [pySplit_nil, List.mem_singleton] at hc
      simp [hc]
  | succ n ih =>
    intro l hl
    cases l with
    | nil =>
      constructor
      · simp [pySplit_nil, List.headI]
      · intro c hc
        simp only [pySplit_nil, List.mem_singleton] at hc
        simp [hc]
    | cons c cs =>
      rw [pySplit_cons]
      by_cases hg : sep ≠ [] ∧ sep.isPrefixOf (c :: cs)
      · simp only [if_pos hg]
        have hdroplen : (cs.drop (sep.length - 1)).length ≤ n := by
          have := List.length_drop (sep.length - 1) cs
          simp only [List.length_cons] at hl
          omega
        have hdropinf : cs.drop (sep.length - 1) <:+: c :: cs := by
          have h1 : cs.drop (sep.length - 1) <:+ cs := List.drop_suffix _ cs
          exact (h1.trans (List.suffix_cons c cs)).isInfix
        constructor
        · simp [List.headI]
        · intro x hx
          rcases List.mem_cons.mp hx with hx | hx
          · simp [hx]
          · exact ((ih _ hdroplen).2 x hx).trans hdropinf
      · simp only [if_neg hg]
        have hcslen : cs.length ≤ n := by
          simp only [List.length_cons] at hl; omega
        have hcs := ih cs hcslen
        cases hpc : pySplit sep cs with
        | nil => exact absurd hpc (pySplit_ne_nil sep cs)
        | cons a t =>
          rw [hpc] at hcs
          have hahead : a <+: cs := by simpa [List.headI] using hcs.1
          constructor
          · simp only [List.modifyHead, List.headI]
            exact List.cons_prefix_cons.mpr ⟨rfl, hahead⟩
          · intro x hx
            simp only [List.modifyHead, List.mem_cons] at hx
            rcases hx with hx | hx
            · subst hx
              exact (List.cons_prefix_cons.mpr ⟨rfl, hahead⟩).isInfix
            · exact (hcs.2 x (List.mem_cons_of_mem a hx)).trans
                (List.suffix_cons c cs).isInfix

theorem pySplit_no_occ (sep : List Char) :
    ∀ l, ¬ sep <:+: l → pySplit sep l = [l] := by
  intro l
  induction l with
  | nil => intro _; rfl
  | cons c cs ih =>
    intro hno
    rw [pySplit_cons]
    have hg : ¬ (sep ≠ [] ∧ sep.isPrefixOf (c :: cs)) := by
      rintro ⟨-, hp⟩
      exact hno (List.isPrefixOf_iff_prefix.mp hp).isInfix
    rw [if_neg hg]
    have hno' : ¬ sep <:+: cs := fun h =>
      hno (h.trans (List.suffix_cons c cs).isInfix)
    rw [ih hno']
    rfl

theorem pySplit_singleton_append (a : Char) :
    ∀ xs ys, pySplit [a] (xs ++ a :: ys) = pySplit [a] xs ++ pySplit [a] ys := by
  intro xs
  induction xs with
  | nil =>
    intro ys
    rw [List.nil_append, pySplit_cons]
    have hg : ([a] ≠ [] ∧ [a].isPrefixOf (a :: ys)) := by
      refine ⟨by simp, ?_⟩
      simp [List.isPrefixOf]
    rw [if_pos hg]
    simp [pySplit_nil]
  | cons x xs ih =>
    intro ys
    rw [List.cons_append, pySplit_cons, pySplit_cons]
    by_cases hxa : a = x
    · subst hxa
      have hg1 : ([a] ≠ [] ∧ [a].isPrefixOf (a :: (xs ++ a :: ys))) := by
        refine ⟨by simp, ?_⟩
        simp [List.isPrefixOf]
      have hg2 : ([a] ≠ [] ∧ [a].isPrefixOf (a :: xs)) := by
        refine ⟨by simp, ?_⟩
        simp [List.isPrefixOf]
      rw [if_pos hg1, if_pos hg2]
      simp only [List.length_singleton, Nat.sub_self, List.drop_zero]
      rw [ih]
      rfl
    · have hg1 : ¬ ([a] ≠ [] ∧ [a].isPrefixOf (x :: (xs ++ a :: ys))) := by
        rintro ⟨-, hp⟩
        simp [List.isPrefixOf] at hp
        exact hxa hp
      have hg2 : ¬ ([a] ≠ [] ∧ [a].isPrefixOf (x :: xs)) := by
        rintro ⟨-, hp⟩
        simp [List.isPrefixOf] at hp
        exact hxa hp
      rw [if_neg hg1, if_neg hg2, ih]
      cases hpx : pySplit [a] xs with
      | nil => exact absurd hpx (pySplit_ne_nil [a] xs)
      | cons b t => simp

theorem prefix_headI_eq {l₁ l₂ : List Char} (h : l₁ <+: l₂) (hne : l₁ ≠ []) :
    l₁.headI = l₂.headI := by
  obtain ⟨t, rfl⟩ := h
  cases l₁ with
  | nil => exact absurd rfl hne
  | cons a l => rfl

theorem pySplit_sep_append (sep : List Char) (hs : SepOk sep) :
    ∀ x y, ¬ sep <:+: x → pySplit sep (x ++ (sep ++ y)) = x :: pySplit sep y := by
  intro x
  induction x with
  | nil =>
    intro y _
    rw [List.nil_append]
    obtain ⟨s0, srest, hsep⟩ : ∃ s0 srest, sep = s0 :: srest := by
      cases sep with
      | nil => exact absurd rfl hs.1
      | cons a t => exact ⟨a, t, rfl⟩
    rw [hsep, List.cons_append, pySplit_cons]
    have hg : ((s0 :: srest) ≠ [] ∧ (s0 :: srest).isPrefixOf (s0 :: (srest ++ y))) := by
      refine ⟨by simp, ?_⟩
      rw [show s0 :: (srest ++ y) = (s0 :: srest) ++ y from rfl]
      exact List.isPrefixOf_iff_prefix.mpr (List.prefix_append _ y)
    rw [if_pos hg]
    simp only [List.length_cons, Nat.add_sub_cancel, List.drop_left]
  | cons c x' ih =>
    intro y hno
    rw [List.cons_append, pySplit_cons]
    have hg : ¬ (sep ≠ [] ∧ sep.isPrefixOf (c :: (x' ++ (sep ++ y)))) := by
      rintro ⟨-, hp⟩
      have hpre : sep <+: (c :: x') ++ (sep ++ y) := by
        rw [List.cons_append]
        exact List.isPrefixOf_iff_prefix.mp hp
      by_cases hlen : sep.length ≤ (c :: x').length
      · have : sep <+: c :: x' :=
          List.prefix_of_prefix_length_le hpre (List.prefix_append _ _) hlen
        exact hno this.isInfix
      · have hxpre : c :: x' <+: sep :=
          List.prefix_of_prefix_length_le (List.prefix_append _ _) hpre (by omega)
        obtain ⟨d, hd⟩ := hxpre
        have hdne : d ≠ [] := by
          intro hdnil
          rw [hdnil, List.append_nil] at hd
          rw [← hd] at hlen
          exact hlen le_rfl
        have hdpre : d <+: sep ++ y := by
          have : (c :: x') ++ d <+: (c :: x') ++ (sep ++ y) := by
            rw [hd]; exact hpre
          exact (List.prefix_append_right_inj (c :: x')).mp this
        have hdhead : d.headI = sep.headI := by
          have h1 : d.headI = (sep ++ y).headI := prefix_headI_eq hdpre hdne
          have h2 : (sep ++ y).headI = sep.headI := by
            cases hsep : sep with
            | nil => exact absurd hsep hs.1
            | cons a t => rfl
          rw [h1, h2]
        have hdmem : d.headI ∈ sep.tail := by
          have htail : sep.tail = x' ++ d := by
            rw [← hd]; rfl
          rw [htail]
          apply List.mem_append_right
          cases hdc : d with
          | nil => exact absurd hdc hdne
          | cons e d' => simp [List.headI]
        exact hs.2 d.headI hdmem hdhead
    rw [if_neg hg]
    have hno' : ¬ sep <:+: x' := fun h =>
      hno (h.trans (List.suffix_cons c x').isInfix)
    rw [ih y hno']
    rfl

theorem pyReplaceEmpty_no_occ (old : List Char) :
    ∀ l, ¬ old <:+: l → pyReplaceEmpty old l = l := by
  intro l
  induction l with
  | nil => intro _; rfl
  | cons c cs ih =>
    intro hno
    rw [pyReplaceEmpty_cons]
    have hg : ¬ (old ≠ [] ∧ old.isPrefixOf (c :: cs)) := by
      rintro ⟨-, hp⟩
      exact hno (List.isPrefixOf_iff_prefix.mp hp).isInfix
    rw [if_neg hg]
    have hno' : ¬ old <:+: cs := fun h =>
      hno (h.trans (List.suffix_cons c cs).isInfix)
    rw [ih hno']

theorem pyReplaceEmpty_append_self (old : List Char) (hne : old ≠ []) (rest : List Char) :
    pyReplaceEmpty old (old ++ rest) = pyReplaceEmpty old rest := by
  obtain ⟨o, os, hold⟩ : ∃ o os, old = o :: os := by
    cases old with
    | nil => exact absurd rfl hne
    | cons a t => exact ⟨a, t, rfl⟩
  subst hold
  rw [List.cons_append, pyReplaceEmpty_cons]
  have hg : ((o :: os) ≠ [] ∧ (o :: os).isPrefixOf (o :: (os ++ rest))) := by
    refine ⟨by simp, ?_⟩
    rw [show o :: (os ++ rest) = (o :: os) ++ rest from rfl]
    exact List.isPrefixOf_iff_prefix.mpr (List.prefix_append _ _)
  rw [if_pos hg]
  simp only [List.length_cons, Nat.add_sub_cancel, List.drop_left]

theorem uninl_rn (cs : List Char) : uninl ('\r' :: '\n' :: cs) = '\n' :: uninl cs := rfl

theorem uninl_r_cons (c : Char) (cs : List Char) (h : c ≠ '\n') :
    uninl ('\r' :: c :: cs) = '\n' :: uninl (c :: cs) := by
  simp [uninl, h]

theorem uninl_cons_ne (c : Char) (cs : List Char) (h : c ≠ '\r') :
    uninl (c :: cs) = c :: uninl cs := by
  cases cs with
  | nil => simp [uninl, h]
  | cons d tail => simp [uninl, h]

theorem uninl_no_cr (l : List Char) (h : '\r' ∉ l) : uninl l = l := by
  induction l with
  | nil => rfl
  | cons c cs ih =>
    have hc : c ≠ '\r' := fun hx => h (hx ▸ List.mem_cons_self c cs)
    rw [uninl_cons_ne c cs hc, ih (fun hx => h (List.mem_cons_of_mem c hx))]

theorem uninl_append_no_cr (xs ys : List Char) (h : '\r' ∉ xs) :
    uninl (xs ++ ys) = xs ++ uninl ys := by
  induction xs with
  | nil => rfl
  | cons c cs ih =>
    have hc : c ≠ '\r' := fun hx => h (hx ▸ List.mem_cons_self c cs)
    rw [List.cons_append, uninl_cons_ne c _ hc,
      ih (fun hx => h (List.mem_cons_of_mem c hx))]
    rfl

theorem uninl_term_append (zs ys : List Char) :
    uninl ((zs ++ ['\n']) ++ ys) = uninl (zs ++ ['\n']) ++ uninl ys := by
  suffices H : ∀ n (zs : List Char), zs.length ≤ n →
      uninl ((zs ++ ['\n']) ++ ys) = uninl (zs ++ ['\n']) ++ uninl ys from
    H zs.length zs le_rfl
  intro n
  induction n with
  | zero =>
    intro zs hzs
    have : zs = [] := List.eq_nil_of_length_eq_zero (Nat.le_zero.mp hzs)
    subst this
    simp only [List.nil_append, List.singleton_append]
    rw [uninl_cons_ne '\n' ys (by decide)]
    rfl
  | succ n ih =>
    intro zs hzs
    cases zs with
    | nil =>
      simp only [List.nil_append, List.singleton_append]
      rw [uninl_cons_ne '\n' ys (by decide)]
      rfl
    | cons c zs' =>
      by_cases hc : c = '\r'
      · subst hc
        cases zs' with
        | nil =>
          rw [show ((['\r'] ++ ['\n']) ++ ys : List Char) = '\r' :: '\n' :: ys from rfl,
            uninl_rn]
          rfl
        | cons d zs'' =>
          by_cases hd : d = '\n'
          · subst hd
            have hlen : zs''.length ≤ n := by
              simp only [List.length_cons] at hzs; omega
            have e1 : (('\r' :: '\n' :: zs'') ++ ['\n']) ++ ys =
                '\r' :: '\n' :: ((zs'' ++ ['\n']) ++ ys) := by simp
            have e2 : ('\r' :: '\n' :: zs'') ++ ['\n'] =
                '\r' :: '\n' :: (zs'' ++ ['\n']) := by simp
            rw [e1, uninl_rn, e2, uninl_rn, ih zs'' hlen, List.cons_append]
          · have hlen : (d :: zs'').length ≤ n := by
              simp only [List.length_cons] at hzs ⊢; omega
            have e1 : (('\r' :: d :: zs'') ++ ['\n']) ++ ys =
                '\r' :: d :: ((zs'' ++ ['\n']) ++ ys) := by simp
            have e2 : ('\r' :: d :: zs'') ++ ['\n'] =
                '\r' :: d :: (zs'' ++ ['\n']) := by simp
            have e3 : d :: ((zs'' ++ ['\n']) ++ ys) = ((d :: zs'') ++ ['\n']) ++ ys := by simp
            have e4 : d :: (zs'' ++ ['\n']) = (d :: zs'') ++ ['\n'] := by simp
            rw [e1, uninl_r_cons d ((zs'' ++ ['\n']) ++ ys) hd, e3, ih (d :: zs'') hlen,
              e2, uninl_r_cons d (zs'' ++ ['\n']) hd, e4, List.cons_append]
            rfl
      · have hlen : zs'.length ≤ n := by
          simp only [List.length_cons] at hzs; omega
        have e1 : ((c :: zs') ++ ['\n']) ++ ys = c :: ((zs' ++ ['\n']) ++ ys) := by simp
        have e2 : (c :: zs') ++ ['\n'] = c :: (zs' ++ ['\n']) := by simp
        rw [e1, uninl_cons_ne c ((zs' ++ ['\n']) ++ ys) hc, ih zs' hlen,
          e2, uninl_cons_ne c (zs' ++ ['\n']) hc, List.cons_append]

theorem uninl_term_ends (zs : List Char) :
    ∃ ws, uninl (zs ++ ['\n']) = ws ++ ['\n'] := by
  suffices H : ∀ n (zs : List Char), zs.length ≤ n →
      ∃ ws, uninl (zs ++ ['\n']) = ws ++ ['\n'] from
    H zs.length zs le_rfl
  intro n
  induction n with
  | zero =>
    intro zs hzs
    have : zs = [] := List.eq_nil_of_length_eq_zero (Nat.le_zero.mp hzs)
    subst this
    exact ⟨[], rfl⟩
  | succ n ih =>
    intro zs hzs
    cases zs with
    | nil => exact ⟨[], rfl⟩
    | cons c zs' =>
      by_cases hc : c = '\r'
      · subst hc
        cases zs' with
        | nil => exact ⟨[], rfl⟩
        | cons d zs'' =>
          by_cases hd : d = '\n'
          · subst hd
            have hlen : zs''.length ≤ n := by
              simp only [List.length_cons] at hzs; omega
            obtain ⟨ws, hws⟩ := ih zs'' hlen
            refine ⟨'\n' :: ws, ?_⟩
            have e2 : ('\r' :: '\n' :: zs'') ++ ['\n'] =
                '\r' :: '\n' :: (zs'' ++ ['\n']) := by simp
            rw [e2, uninl_rn, hws, List.cons_append]
          · have hlen : (d :: zs'').length ≤ n := by
              simp only [List.length_cons] at hzs ⊢; omega
            obtain ⟨ws, hws⟩ := ih (d :: zs'') hlen
            refine ⟨'\n' :: ws, ?_⟩
            have e2 : ('\r' :: d :: zs'') ++ ['\n'] =
                '\r' :: d :: (zs'' ++ ['\n']) := by simp
            have e4 : d :: (zs'' ++ ['\n']) = (d :: zs'') ++ ['\n'] := by simp
            rw [e2, uninl_r_cons d (zs'' ++ ['\n']) hd, e4, hws, List.cons_append]
      · have hlen : zs'.length ≤ n := by
          simp only [List.length_cons] at hzs; omega
        obtain ⟨ws, hws⟩ := ih zs' hlen
        refine ⟨c :: ws, ?_⟩
        have e2 : (c :: zs') ++ ['\n'] = c :: (zs' ++ ['\n']) := by simp
        rw [e2, uninl_cons_ne c (zs' ++ ['\n']) hc, hws, List.cons_append]

theorem memLines_append_nl (xs ys : List Char) (hx : '\r' ∉ xs) :
    memLines (xs ++ '\n' :: ys) = memLines xs ++ memLines ys := by
  unfold memLines
  rw [uninl_append_no_cr xs ('\n' :: ys) hx, uninl_cons_ne '\n' ys (by decide),
    uninl_no_cr xs hx, pySplit_singleton_append '\n' xs (uninl ys),
    List.map_append, List.filter_append]

theorem memLines_term_append (zs ys : List Char) :
    memLines ((zs ++ ['\n']) ++ ys) = memLines (zs ++ ['\n']) ++ memLines ys := by
  unfold memLines
  obtain ⟨ws, hws⟩ := uninl_term_ends zs
  rw [uninl_term_append zs ys, hws]
  have e1 : (ws ++ ['\n']) ++ uninl ys = ws ++ '\n' :: uninl ys := by simp
  have e2 : ws ++ ['\n'] = ws ++ '\n' :: ([] : List Char) := rfl
  have e3 : ((pySplit ['\n'] ([] : List Char)).map pyStrip).filter
      (fun x => decide (x ≠ [])) = ([] : List (List Char)) := rfl
  rw [e1, pySplit_singleton_append '\n' ws (uninl ys), e2,
    pySplit_singleton_append '\n' ws [], List.map_append, List.map_append,
    List.filter_append, List.filter_append, e3, List.append_nil]

theorem memLines_goodEntry {e : String} (h : GoodEntry e) :
    memLines e.data = [e.data] := by
  obtain ⟨hstrip, hne, hnl, hcr⟩ := h
  have hno : ¬ ['\n'] <:+: e.data := by
    intro hinf
    obtain ⟨s, t, hst⟩ := hinf
    apply hnl
    rw [← hst]
    simp
  unfold memLines
  rw [uninl_no_cr e.data hcr, pySplit_no_occ ['\n'] e.data hno]
  simp [hstrip, hne]

theorem map_mk_data (es : List String) :
    (es.map (fun e => e.data)).map (fun l => String.mk l) = es := by
  induction es with
  | nil => rfl
  | cons e es ih => simp [ih]

theorem entriesText_data_cons (e : String) (es : List String) :
    (entriesText (e :: es)).data = e.data ++ '\n' :: (entriesText es).data := by
  show (e ++ "\n" ++ entriesText es).data = _
  simp [String.data_append]

theorem memLines_entriesText (es : List String) (h : ∀ e ∈ es, GoodEntry e) :
    memLines (entriesText es).data = es.map (fun e => e.data) := by
  induction es with
  | nil => rfl
  | cons e es ih =>
    have hgE := h e (List.mem_cons_self e es)
    rw [entriesText_data_cons,
      memLines_append_nl e.data (entriesText es).data hgE.2.2.2,
      memLines_goodEntry hgE,
      ih (fun x hx => h x (List.mem_cons_of_mem e hx))]
    rfl

theorem appendEntries_ok_some (es : List String) :
    ∀ c, appendEntries es ⟨some c, true⟩ =
      Except.ok ⟨some (c ++ entriesText es), true⟩ := by
  induction es with
  | nil =>
    intro c
    show Except.ok _ = _
    rw [show entriesText [] = "" from rfl, String.append_empty]
  | cons e es ih =>
    intro c
    show List.foldl _ (Except.bind (Except.ok ⟨some c, true⟩) (save_feedback e)) es = _
    have hstep : Except.bind (Except.ok (⟨some c, true⟩ : MemFS)) (save_feedback e) =
        Except.ok ⟨some (c ++ e ++ "\n"), true⟩ := rfl
    rw [hstep]
    have := ih (c ++ e ++ "\n")
    show appendEntries es ⟨some (c ++ e ++ "\n"), true⟩ = _
    rw [this]
    have hassoc : c ++ e ++ "\n" ++ entriesText es = c ++ entriesText (e :: es) := by
      show _ = c ++ (e ++ "\n" ++ entriesText es)
      rw [String.append_assoc, String.append_assoc, String.append_assoc]
    rw [hassoc]


/-- C3 (amended).  `load_trimmed_memory` of a missing file is empty; for a
positive limit the window never exceeds `limit` entries; and after appending
`M > N` entries that are single-line (containing neither a line feed nor a
carriage return), nonblank and free of surrounding whitespace (in the full
`str.strip` sense) to a reachable prior state, reading with limit `N ≥ 1`
returns exactly the last `N` appended entries in chronological order.  (As
literally stated the claim fails: entries are returned stripped of
surrounding whitespace rather than verbatim, an entry with an embedded line
feed or carriage return fragments into several window slots under
universal-newlines reading, a prior content not ending in a newline merges
with the first appended entry, and Python's `lines[-0:]` returns every
line.) -/
theorem memory_window_read :
    (∀ N, load_trimmed_memory none N = []) ∧
    (∀ f N, 1 ≤ N → (load_trimmed_memory f N).length ≤ N) ∧
    (∀ f es fs N, TerminatedPrior f → (∀ e ∈ es, GoodEntry e) → 1 ≤ N →
      N < es.length → appendEntries es ⟨f, true⟩ = Except.ok fs →
      load_trimmed_memory fs.file N = es.drop (es.length - N)) := by
  refine ⟨fun N => rfl, ?_, ?_⟩
  · intro f N hN
    match f with
    | none => simp [load_trimmed_memory]
    | some content =>
      simp only [load_trimmed_memory, if_neg (by omega : ¬ N = 0)]
      rw [List.length_drop]
      omega
  · intro f es fs N hterm hgood hN hlen happ
    obtain ⟨c0, hfile, hc0⟩ : ∃ c0 : String, fs.file = some (c0 ++ entriesText es) ∧
        (c0.data = [] ∨ ∃ zs, c0.data = zs ++ ['\n']) := by
      cases f with
      | none =>
        refine ⟨"", ?_, Or.inl rfl⟩
        cases es with
        | nil => simp only [List.length_nil] at hlen; omega
        | cons e es' =>
          have hstep : appendEntries (e :: es') ⟨none, true⟩ =
              appendEntries es' ⟨some ("" ++ e ++ "\n"), true⟩ := rfl
          rw [hstep, appendEntries_ok_some] at happ
          have hfs : (⟨some ("" ++ e ++ "\n" ++ entriesText es'), true⟩ : MemFS) = fs := by
            injection happ
          have hstr : "" ++ e ++ "\n" ++ entriesText es' = "" ++ entriesText (e :: es') := by
            show _ = "" ++ (e ++ "\n" ++ entriesText es')
            simp [String.append_assoc]
          rw [← hfs]
          exact congrArg some hstr
      | some s =>
        refine ⟨s, ?_, hterm s rfl⟩
        cases es with
        | nil => simp only [List.length_nil] at hlen; omega
        | cons e es' =>
          have hstep : appendEntries (e :: es') ⟨some s, true⟩ =
              appendEntries es' ⟨some (s ++ e ++ "\n"), true⟩ := rfl
          rw [hstep, appendEntries_ok_some] at happ
          have hfs : (⟨some (s ++ e ++ "\n" ++ entriesText es'), true⟩ : MemFS) = fs := by
            injection happ
          have hstr : s ++ e ++ "\n" ++ entriesText es' = s ++ entriesText (e :: es') := by
            show _ = s ++ (e ++ "\n" ++ entriesText es')
            simp [String.append_assoc]
          rw [← hfs]
          exact congrArg some hstr
    obtain ⟨L0, hL0⟩ : ∃ L0, memLines (c0 ++ entriesText es).data =
        L0 ++ es.map (fun e => e.data) := by
      rcases hc0 with h0 | ⟨zs, hzs⟩
      · refine ⟨[], ?_⟩
        rw [String.data_append, h0, List.nil_append,
          memLines_entriesText es hgood, List.nil_append]
      · refine ⟨memLines (zs ++ ['\n']), ?_⟩
        have hdata : (c0 ++ entriesText es).data =
            (zs ++ ['\n']) ++ (entriesText es).data := by
          rw [String.data_append, hzs]
        rw [hdata, memLines_term_append, memLines_entriesText es hgood]
    rw [hfile]
    simp only [load_trimmed_memory]
    rw [if_neg (by omega : ¬ N = 0), hL0, List.map_append, map_mk_data,
      List.length_append]
    have harith : (L0.map (fun l => String.mk l)).length + es.length - N =
        (L0.map (fun l => String.mk l)).length + (es.length - N) := by omega
    rw [harith, ← List.drop_drop, List.drop_left]

/-- Witness for C3: two entries appended to an absent store, window of 1. -/
theorem memory_window_read_witness :
    load_trimmed_memory (MemFS.file ⟨some "a\nb\n", true⟩) 1 =
      ["a", "b"].drop (["a", "b"].length - 1) :=
  memory_window_read.2.2 none ["a", "b"] ⟨some "a\nb\n", true⟩ 1
    (fun s h => by cases h) (by decide) (by decide) (by decide) rfl

/-- Counterexample to C3 as literally stated: (i) a whitespace-padded entry
is returned stripped, not verbatim; (ii) with limit 0 the window holds every
line (Python `lines[-0:]` is the whole list), exceeding the limit; (iii) a
prior content not ending in a newline merges with the first appended entry. -/
theorem memory_window_read_cex :
    (appendEntries ["a", " b "] ⟨none, true⟩ = Except.ok ⟨some "a\n b \n", true⟩ ∧
      load_trimmed_memory (some "a\n b \n") 1 = ["b"] ∧ ["b"] ≠ [" b "]) ∧
    ((load_trimmed_memory (some "a\nb\n") 0).length = 2 ∧ ¬ (2 ≤ 0)) ∧
    (appendEntries ["a"] ⟨some "x", true⟩ = Except.ok ⟨some "xa\n", true⟩ ∧
      load_trimmed_memory (some "xa\n") 5 = ["xa"] ∧ ["xa"] ≠ ["a"]) ∧
    (appendEntries ["c", "a\rb"] ⟨none, true⟩ = Except.ok ⟨some "c\na\rb\n", true⟩ ∧
      load_trimmed_memory (some "c\na\rb\n") 1 = ["b"] ∧ ["b"] ≠ ["a\rb"]) ∧
    (appendEntries ["x", "a\x1c"] ⟨none, true⟩ = Except.ok ⟨some "x\na\x1c\n", true⟩ ∧
      load_trimmed_memory (some "x\na\x1c\n") 5 = ["x", "a"] ∧
      ["x", "a"] ≠ ["x", "a\x1c"]) :=
  ⟨⟨rfl, by decide, by decide⟩, ⟨by decide, by decide⟩,
   ⟨rfl, by decide, by decide⟩, ⟨rfl, by decide, by decide⟩,
   rfl, by decide, by decide⟩

/-- C7 (amended).  `save_feedback` appends the entry followed by a line
terminator to the end of the store (creating it when absent); but when the
backing medium is unavailable it does NOT fail silently: `open` raises and
`save_feedback` has no exception handler, so the exception propagates to
the caller. -/
theorem save_feedback_append :
    (∀ t fs, fs.available = true →
      save_feedback t fs = Except.ok ⟨some ((fs.file.getD "") ++ t ++ "\n"), true⟩) ∧
    (∀ t fs, fs.available = false → save_feedback t fs = Except.error ()) := by
  constructor
  · intro t fs h
    obtain ⟨file, avail⟩ := fs
    have h' : avail = true := h
    subst h'
    rfl
  · intro t fs h
    obtain ⟨file, avail⟩ := fs
    have h' : avail = false := h
    subst h'
    rfl

/-- Witness for C7: appending to an existing store and failing on an
unavailable medium, at concrete inputs. -/
theorem save_feedback_append_witness :
    save_feedback "x" ⟨some "m\n", true⟩ =
      Except.ok ⟨some (((some "m\n").getD "") ++ "x" ++ "\n"), true⟩ ∧
    save_feedback "x" ⟨some "m\n", false⟩ = Except.error () :=
  ⟨save_feedback_append.1 "x" ⟨some "m\n", true⟩ rfl,
   save_feedback_append.2 "x" ⟨some "m\n", false⟩ rfl⟩

/-- Counterexample to C7 as literally stated: on an unavailable backing
medium the append surfaces an exception (`Except.error`), it does not fail
silently. -/
theorem save_feedback_silent_cex :
    save_feedback "x" ⟨none, false⟩ = Except.error () ∧
    ¬ ∃ fs, save_feedback "x" ⟨none, false⟩ = Except.ok fs := by
  constructor
  · rfl
  · rintro ⟨fs, h⟩
    exact Except.noConfusion h

/-- C8.  Clearing the memory store then reading returns the empty sequence,
for any prior state and any limit, and clearing is idempotent. -/
theorem clear_memory_read :
    (∀ f N, load_trimmed_memory (clear_memory f) N = []) ∧
    (∀ f, clear_memory (clear_memory f) = clear_memory f) := by
  constructor
  · intro f N
    cases f <;> rfl
  · intro f
    cases f <;> rfl

/-- C9.  An entry containing an embedded newline is handed back by the next
read as its separate line fragments (here two single-line fragments for one
append), so a single append can occupy several slots of the window and a
read can return strings that were never appended as whole entries; moreover
entries are returned stripped of surrounding whitespace, not verbatim. -/
theorem newline_entry_fragmentation :
    (∀ x y fs, GoodEntry x → GoodEntry y →
      save_feedback (x ++ "\n" ++ y) ⟨none, true⟩ = Except.ok fs →
      load_trimmed_memory fs.file 5 = [x, y]) ∧
    (load_trimmed_memory (some "  hello  \n") 5 = ["hello"] ∧ "hello" ≠ "  hello  ") := by
  constructor
  · intro x y fs hx hy hsave
    have hfs : (⟨some ("" ++ (x ++ "\n" ++ y) ++ "\n"), true⟩ : MemFS) = fs := by
      have : save_feedback (x ++ "\n" ++ y) ⟨none, true⟩ =
          Except.ok ⟨some ("" ++ (x ++ "\n" ++ y) ++ "\n"), true⟩ := rfl
      rw [this] at hsave
      injection hsave
    rw [← hfs]
    have hdata : ("" ++ (x ++ "\n" ++ y) ++ "\n").data =
        x.data ++ '\n' :: (y.data ++ '\n' :: []) := by
      simp [String.data_append]
    show load_trimmed_memory (some ("" ++ (x ++ "\n" ++ y) ++ "\n")) 5 = [x, y]
    simp only [load_trimmed_memory]
    rw [if_neg (by omega : ¬ (5 : Nat) = 0), hdata,
      memLines_append_nl x.data _ hx.2.2.2]
    have hy' : y.data ++ '\n' :: [] = y.data ++ '\n' :: ("" : String).data := rfl
    rw [hy', memLines_append_nl y.data _ hy.2.2.2,
      memLines_goodEntry hx, memLines_goodEntry hy]
    have hempty : memLines ("" : String).data = [] := rfl
    rw [hempty, List.append_nil]
    have hxy : ([x.data] ++ [y.data]).map (fun l => String.mk l) = [x, y] := by
      have hx' : String.mk x.data = x := by cases x; rfl
      have hy' : String.mk y.data = y := by cases y; rfl
      simp [hx', hy']
    rw [hxy]
    rfl
  · exact ⟨by decide, by decide⟩

/-- Witness for C9: the entry `"a\nb"` comes back as the two entries
`["a", "b"]`. -/
theorem newline_entry_fragmentation_witness :
    load_trimmed_memory (MemFS.file ⟨some "a\nb\n", true⟩) 5 = ["a", "b"] :=
  newline_entry_fragmentation.1 "a" "b" ⟨some "a\nb\n", true⟩
    (by decide) (by decide) rfl

/-- C5.  The parser splits the raw text on the literal `"---"` and keeps
exactly the segments containing `"NAME:"`: a text without any `"NAME:"`
occurrence yields no blocks, and a two-segment split where only the first
segment contains `"NAME:"` yields exactly that first segment. -/
theorem parser_blocks_filter :
    (∀ t : String, ¬ ("NAME:".data <:+: t.data) → meal_blocks t = []) ∧
    (∀ (t : String) (s1 s2 : List Char), raw_options t = [s1, s2] →
      ("NAME:".data <:+: s1) → ¬ ("NAME:".data <:+: s2) →
      meal_blocks t = [s1]) := by
  constructor
  · intro t hno
    apply List.filter_eq_nil_iff.mpr
    intro o ho
    have hoinf : o <:+: t.data :=
      (pySplit_chunks "---".data t.data).2 o ho
    simp only [decide_eq_true_eq]
    intro hname
    exact hno (hname.trans hoinf)
  · intro t s1 s2 hro h1 h2
    unfold meal_blocks
    rw [hro]
    simp [List.filter_cons, h1, h2]

/-- Witness for C5: a two-segment text where only the first segment has
`"NAME:"`, and a text with no `"NAME:"` at all. -/
theorem parser_blocks_filter_witness :
    meal_blocks "NAME: A---junk" = ["NAME: A".data] ∧
    meal_blocks "no name here" = [] :=
  ⟨parser_blocks_filter.2 "NAME: A---junk" "NAME: A".data "junk".data
      (by decide) (by decide) (by decide),
   parser_blocks_filter.1 "no name here" (by decide)⟩

/-- C1 (amended).  `get_val` scans the block's lines for the first line
containing the label substring and returns that line with every occurrence
of the label removed (Python `str.replace` removes all occurrences, not
just a leading one) and surrounding whitespace stripped; when the first
such line starts with the label and contains no further occurrence this is
exactly the text after the label marker, trimmed.  When no line contains
the label it returns `"N/A"`. -/
theorem get_val_field_extraction :
    (∀ lines label, (∀ l ∈ lines, ¬ (label <:+: l)) →
      get_val lines label = "N/A".data) ∧
    (∀ label pre rest post, label ≠ [] → (∀ l ∈ pre, ¬ (label <:+: l)) →
      ¬ (label <:+: rest) →
      get_val (pre ++ (label ++ rest) :: post) label = pyStrip rest) := by
  constructor
  · intro lines label hno
    unfold get_val
    have hfind : lines.find? (fun l => decide (label <:+: l)) = none := by
      apply List.find?_eq_none.mpr
      intro x hx
      simp only [decide_eq_true_eq]
      exact hno x hx
    rw [hfind]
  · intro label pre rest post hne hpre hrest
    unfold get_val
    have hfind : (pre ++ (label ++ rest) :: post).find?
        (fun l => decide (label <:+: l)) = some (label ++ rest) := by
      rw [List.find?_append]
      have hprenone : pre.find? (fun l => decide (label <:+: l)) = none := by
        apply List.find?_eq_none.mpr
        intro x hx
        simp only [decide_eq_true_eq]
        exact hpre x hx
      rw [hprenone, Option.none_or]
      apply List.find?_cons_of_pos
      simp only [decide_eq_true_eq]
      exact (List.prefix_append label rest).isInfix
    rw [hfind]
    show pyStrip (pyReplaceEmpty label (label ++ rest)) = pyStrip rest
    rw [pyReplaceEmpty_append_self label hne rest,
      pyReplaceEmpty_no_occ label rest hrest]

/-- Witness for C1: a line starting with the label, and a block lacking the
label. -/
theorem get_val_field_extraction_witness :
    get_val ([] ++ ("NAME:".data ++ " Pad Thai".data) :: []) "NAME:".data =
      pyStrip " Pad Thai".data ∧
    get_val ["TIME: 15min".data] "NAME:".data = "N/A".data :=
  ⟨get_val_field_extraction.2 "NAME:".data [] " Pad Thai".data []
      (by decide) (by decide) (by decide),
   get_val_field_extraction.1 ["TIME: 15min".data] "NAME:".data (by decide)⟩

/-- Counterexample to C1 as literally stated: for the line `"x NAME: y"`
the claim demands the text after the label marker, trimmed (`"y"`), but
`str.replace` removes the mid-line occurrence and keeps the preceding text,
yielding `"x  y"`. -/
theorem get_val_midline_label_cex :
    get_val ["x NAME: y".data] "NAME:".data ≠ pyStrip " y".data ∧
    get_val ["x NAME: y".data] "NAME:".data = "x  y".data :=
  ⟨by decide, by decide⟩

/-- C2 (amended).  When a block contains exactly one `"RECIPE:"` occurrence,
the recipe field is the span after that marker up to (but not including)
the first following `"CAPTION:"`, whitespace-trimmed; and the concrete
Kimchi Fried Rice raw text parses to one block whose name, time, recipe
and caption are exactly as claimed.  (As literally stated the claim fails:
`opt.split("RECIPE:")[1]` also truncates the span at a second `"RECIPE:"`
occurrence, not only at `"CAPTION:"`.) -/
theorem recipe_span_extraction :
    (∀ x a b : List Char, ¬ ("RECIPE:".data <:+: x) →
      ¬ ("RECIPE:".data <:+: (a ++ ("CAPTION:".data ++ b))) →
      ¬ ("CAPTION:".data <:+: a) →
      recipe_content (x ++ ("RECIPE:".data ++ (a ++ ("CAPTION:".data ++ b)))) =
        pyStrip a) ∧
    (meal_blocks "---\nNAME: Kimchi Fried Rice\nTIME: 15min\nRECIPE: 1. Fry rice.\n2. Add kimchi.\nCAPTION: Yum!\n---" =
        ["\nNAME: Kimchi Fried Rice\nTIME: 15min\nRECIPE: 1. Fry rice.\n2. Add kimchi.\nCAPTION: Yum!\n".data] ∧
      get_val (block_lines "\nNAME: Kimchi Fried Rice\nTIME: 15min\nRECIPE: 1. Fry rice.\n2. Add kimchi.\nCAPTION: Yum!\n".data)
        "NAME:".data = "Kimchi Fried Rice".data ∧
      get_val (block_lines "\nNAME: Kimchi Fried Rice\nTIME: 15min\nRECIPE: 1. Fry rice.\n2. Add kimchi.\nCAPTION: Yum!\n".data)
        "TIME:".data = "15min".data ∧
      recipe_content "\nNAME: Kimchi Fried Rice\nTIME: 15min\nRECIPE: 1. Fry rice.\n2. Add kimchi.\nCAPTION: Yum!\n".data =
        "1. Fry rice.\n2. Add kimchi.".data ∧
      get_val (block_lines "\nNAME: Kimchi Fried Rice\nTIME: 15min\nRECIPE: 1. Fry rice.\n2. Add kimchi.\nCAPTION: Yum!\n".data)
        "CAPTION:".data = "Yum!".data) := by
  constructor
  · intro x a b hx hy hcap
    have hrec : SepOk "RECIPE:".data := by decide
    have hcapok : SepOk "CAPTION:".data := by decide
    unfold recipe_content
    rw [pySplit_sep_append "RECIPE:".data hrec x (a ++ ("CAPTION:".data ++ b)) hx]
    show pyStrip ((pySplit "CAPTION:".data
      ((pySplit "RECIPE:".data (a ++ ("CAPTION:".data ++ b))).getD 0 [])).headI) = _
    rw [pySplit_no_occ "RECIPE:".data (a ++ ("CAPTION:".data ++ b)) hy]
    show pyStrip ((pySplit "CAPTION:".data (a ++ ("CAPTION:".data ++ b))).headI) = _
    rw [pySplit_sep_append "CAPTION:".data hcapok a b hcap]
    rfl
  · exact ⟨by decide, by decide, by decide, by decide, by decide⟩

/-- Witness for C2: a single-`RECIPE:` block whose span runs up to the
`CAPTION:` marker. -/
theorem recipe_span_extraction_witness :
    recipe_content ("NAME: A\n".data ++ ("RECIPE:".data ++
        (" 1. Cook.\n".data ++ ("CAPTION:".data ++ " nice".data)))) =
      pyStrip " 1. Cook.\n".data :=
  recipe_span_extraction.1 "NAME: A\n".data " 1. Cook.\n".data " nice".data
    (by decide) (by decide) (by decide)

/-- Counterexample to C2 as literally stated: in a block where `"RECIPE:"`
occurs twice before `"CAPTION:"`, the claimed span up to the next
`"CAPTION:"` (trimmed) is `"a\nRECIPE: b"`, but the code truncates at the
second `"RECIPE:"` and yields `"a"`. -/
theorem recipe_double_marker_cex :
    recipe_content "RECIPE: a\nRECIPE: b\nCAPTION: c".data = "a".data ∧
    "a".data ≠ "a\nRECIPE: b".data :=
  ⟨by decide, by decide⟩

/-- C6 (amended).  The user message embeds ingredients, time, vibe and
budget as plain key:value prose with empty fields passed through verbatim,
and the system instruction embeds the joined Memory Window string; but the
energy and grocery-access form fields are collected and never interpolated
into either message. -/
theorem prompt_builder_messages :
    (∀ i t e v b g, prompt_text i t e v b g =
      "Inventory: " ++ i ++ ", Time: " ++ t ++ ", Vibe: " ++ v ++ ", Budget: " ++ b) ∧
    (∀ mem : String, mem.data <:+: (sys_instruct mem).data) := by
  constructor
  · intro i t e v b g
    rfl
  · intro mem
    refine ⟨sysInstructPre.data, sysInstructPost.data, ?_⟩
    show sysInstructPre.data ++ mem.data ++ sysInstructPost.data = (sys_instruct mem).data
    simp [sys_instruct, String.data_append]

/-- Counterexample to C6 as literally stated: the user message is identical
for different energy levels and grocery-access values, and the energy value
never appears in it, so those two form fields are not embedded. -/
theorem prompt_builder_energy_cex :
    prompt_text "i" "t" "LOW" "v" "b" "rare" =
      prompt_text "i" "t" "HIGH" "v" "b" "frequent" ∧
    ("LOW" : String) ≠ "HIGH" ∧ ("rare" : String) ≠ "frequent" ∧
    ¬ ("LOW".data <:+: (prompt_text "i" "t" "LOW" "v" "b" "rare").data) :=
  ⟨rfl, by decide, by decide, by decide⟩

theorem hfLoop_step (o : Nat → AttemptOutcome) (a n : Nat) :
    hfLoop o a (n+1) =
      match o a with
      | .raises => (none, [])
      | .resp r =>
        if r.status_code = 200 then (some r.content, [])
        else if r.status_code = 503 then
          match r.json_estimated with
          | none => (none, [])
          | some est =>
            ((hfLoop o (a+1) n).1, est.getD 20 :: (hfLoop o (a+1) n).2)
        else (none, []) := rfl

theorem hfLoop_all503 (o : Nat → AttemptOutcome) :
    ∀ fuel a, (∀ i, a ≤ i → i < a + fuel →
        ∃ c, o i = AttemptOutcome.resp ⟨503, c, some none⟩) →
      hfLoop o a fuel = (none, List.replicate fuel 20) := by
  intro fuel
  induction fuel with
  | zero => intro a _; rfl
  | succ n ih =>
    intro a h
    rw [hfLoop_step]
    obtain ⟨c, hc⟩ := h a (le_refl a) (by omega)
    rw [hc]
    show ((hfLoop o (a+1) n).1, (20 : Nat) :: (hfLoop o (a+1) n).2) = _
    have hr : hfLoop o (a+1) n = (none, List.replicate n 20) :=
      ih (a+1) (fun i h1 h2 => h i (by omega) (by omega))
    rw [hr, List.replicate_succ]

theorem hfLoop_congr (o o' : Nat → AttemptOutcome) :
    ∀ fuel a, (∀ i, a ≤ i → i < a + fuel → o i = o' i) →
      hfLoop o a fuel = hfLoop o' a fuel := by
  intro fuel
  induction fuel with
  | zero => intro a _; rfl
  | succ n ih =>
    intro a h
    rw [hfLoop_step, hfLoop_step, ← h a (le_refl a) (by omega)]
    have hr : hfLoop o (a+1) n = hfLoop o' (a+1) n :=
      ih (a+1) (fun i h1 h2 => h i (by omega) (by omega))
    simp only [hr]

/-- C4.  The image client returns the response bytes on HTTP 200; on 503 it
reads the suggested wait from the JSON body (default 20s), sleeps and
retries; on any other status or a transport-level exception it returns the
failure signal immediately; it never inspects more than 3 attempts; and
three consecutive 503 responses whose JSON bodies carry no usable wait hint
exhaust the retry budget, sleeping 20s each time, and return the failure
signal without raising. -/
theorem image_client_retry :
    (∀ o r, o 0 = AttemptOutcome.resp r → r.status_code = 200 →
      generate_hf_image o = (some r.content, [])) ∧
    (∀ o, o 0 = AttemptOutcome.raises → generate_hf_image o = (none, [])) ∧
    (∀ o r, o 0 = AttemptOutcome.resp r → r.status_code ≠ 200 →
      r.status_code ≠ 503 → generate_hf_image o = (none, [])) ∧
    (∀ o c t r, o 0 = AttemptOutcome.resp ⟨503, c, some (some t)⟩ →
      o 1 = AttemptOutcome.resp r → r.status_code = 200 →
      generate_hf_image o = (some r.content, [t])) ∧
    (∀ o, (∀ i, i < 3 → ∃ c, o i = AttemptOutcome.resp ⟨503, c, some none⟩) →
      generate_hf_image o = (none, [20, 20, 20])) ∧
    (∀ o o', (∀ i, i < 3 → o i = o' i) →
      generate_hf_image o = generate_hf_image o') := by
  refine ⟨?_, ?_, ?_, ?_, ?_, ?_⟩
  · intro o r h0 hst
    show hfLoop o 0 (2+1) = (some r.content, [])
    rw [hfLoop_step, h0]
    simp [hst]
  · intro o h0
    show hfLoop o 0 (2+1) = (none, [])
    rw [hfLoop_step, h0]
  · intro o r h0 h200 h503
    show hfLoop o 0 (2+1) = (none, [])
    rw [hfLoop_step, h0]
    simp [h200, h503]
  · intro o c t r h0 h1 hst
    show hfLoop o 0 (2+1) = (some r.content, [t])
    rw [hfLoop_step, h0]
    show ((hfLoop o (0+1) 2).1, t :: (hfLoop o (0+1) 2).2) = (some r.content, [t])
    have h2 : hfLoop o (0+1) 2 = (some r.content, []) := by
      show hfLoop o 1 (1+1) = _
      rw [hfLoop_step, h1]
      simp [hst]
    rw [h2]
  · intro o h
    have := hfLoop_all503 o 3 0 (fun i h1 h2 => h i (by omega))
    exact this
  · intro o o' h
    exact hfLoop_congr o o' 3 0 (fun i h1 h2 => h i (by omega))

/-- Witness for C4: a constant stream of 503 responses with JSON bodies
lacking the wait hint exhausts the three attempts with three default 20s
sleeps and fails. -/
theorem image_client_retry_witness :
    generate_hf_image (fun _ => AttemptOutcome.resp ⟨503, "", some none⟩) =
      (none, [20, 20, 20]) :=
  image_client_retry.2.2.2.2.1 (fun _ => AttemptOutcome.resp ⟨503, "", some none⟩)
    (fun i _ => ⟨"", rfl⟩)

/-- C10.  On a 503 whose body does not parse as JSON, the exception from
`response.json()` is swallowed by the catch-all handler and the client
returns the failure signal immediately: no sleep, no further attempts.  The
default-20s wait-and-retry path runs only when the body parses as JSON. -/
theorem image_client_json_guard :
    (∀ o c, o 0 = AttemptOutcome.resp ⟨503, c, none⟩ →
      generate_hf_image o = (none, [])) ∧
    (∀ o c, o 0 = AttemptOutcome.resp ⟨503, c, some none⟩ →
      ∃ p : Option String × List Nat, generate_hf_image o = (p.1, 20 :: p.2)) := by
  constructor
  · intro o c h0
    show hfLoop o 0 (2+1) = (none, [])
    rw [hfLoop_step, h0]
    rfl
  · intro o c h0
    refine ⟨hfLoop o (0+1) 2, ?_⟩
    show hfLoop o 0 (2+1) = _
    rw [hfLoop_step, h0]
    rfl

/-- Witness for C10: a 503 with a non-JSON body fails at once with no
sleeps, while a 503 with an empty JSON body sleeps the default 20s. -/
theorem image_client_json_guard_witness :
    generate_hf_image (fun _ => AttemptOutcome.resp ⟨503, "x", none⟩) = (none, []) ∧
    ∃ p : Option String × List Nat,
      generate_hf_image (fun _ => AttemptOutcome.resp ⟨503, "x", some none⟩) =
        (p.1, 20 :: p.2) :=
  ⟨image_client_json_guard.1 (fun _ => AttemptOutcome.resp ⟨503, "x", none⟩) "x" rfl,
   image_client_json_guard.2 (fun _ => AttemptOutcome.resp ⟨503, "x", some none⟩) "x" rfl⟩
